import Mathlib

/-!
Verification development for the PhotoSpeak client-side association cache
(`src/stores/photos.ts`) and its blob-storage naming scheme
(`src/electron/main.ts`).

The in-memory `Map<string, AudioAssociation[]>` is embedded as an
insertion-ordered association list; `mapGet`, `mapSet` and `mapDelete`
mirror the JavaScript `Map` operations (set updates an existing key in
place, otherwise appends; delete removes the entry, preserving the order
of the rest).  Nondeterministic inputs of the real program (generated
clip ids, `Date.now()`, paths returned by the main process, the file
picked by the user) are explicit parameters.
-/

namespace PhotoSpeak

/-- One audio clip record (`AudioAssociation` in `src/stores/photos.ts`). -/
structure AudioClip where
  id : String
  photoId : String
  audioPath : String
  createdAt : Nat
  duration : Option Nat
deriving DecidableEq, Repr

/-- The in-memory index: insertion-ordered map from photo id to clip list. -/
abbrev AssociationIndex := List (String × List AudioClip)

/-- `Map.get`: first entry with the given key. -/
def mapGet (m : AssociationIndex) (k : String) : Option (List AudioClip) :=
  match m with
  | [] => none
  | e :: rest => if e.1 = k then some e.2 else mapGet rest k

/-- `Map.set`: replace the value of an existing key in place, else append. -/
def mapSet (m : AssociationIndex) (k : String) (v : List AudioClip) :
    AssociationIndex :=
  match m with
  | [] => [(k, v)]
  | e :: rest => if e.1 = k then (k, v) :: rest else e :: mapSet rest k v

/-- `Map.delete`: remove the entry with the given key. -/
def mapDelete (m : AssociationIndex) (k : String) : AssociationIndex :=
  match m with
  | [] => []
  | e :: rest => if e.1 = k then rest else e :: mapDelete rest k

/-- `selectedPhotoAudio` / `audioAssociations.value.get(photoId) || []`. -/
def getClipsFor (m : AssociationIndex) (k : String) : List AudioClip :=
  (mapGet m k).getD []

/-! ### Serialization (`saveAssociations`)

`saveAssociations` runs `JSON.stringify(Array.from(map.entries()))`.
The functions below produce that byte string for the canonical field
order in which the store creates clip objects
(`id`, `photoId`, `audioPath`, `createdAt`, `duration?`); a missing
`duration` is an absent JSON field, exactly as `JSON.stringify` omits
`undefined` properties. -/

def hexDigit (n : Nat) : Char :=
  if n < 10 then Char.ofNat (48 + n) else Char.ofNat (87 + n)

def jsonEscapeChar (c : Char) : String :=
  if c = '"' then "\\\""
  else if c = '\\' then "\\\\"
  else if c = '\n' then "\\n"
  else if c = '\r' then "\\r"
  else if c = '\t' then "\\t"
  else if c.toNat = 8 then "\\b"
  else if c.toNat = 12 then "\\f"
  else if c.toNat < 32 then
    "\\u00" ++ String.mk [hexDigit (c.toNat / 16), hexDigit (c.toNat % 16)]
  else String.mk [c]

def jsonStr (s : String) : String :=
  "\"" ++ String.join (s.toList.map jsonEscapeChar) ++ "\""

def joinWith (sep : String) : List String → String
  | [] => ""
  | [s] => s
  | s :: rest => s ++ sep ++ joinWith sep rest

def serializeClip (c : AudioClip) : String :=
  "\x7b\"id\":" ++ jsonStr c.id ++
  ",\"photoId\":" ++ jsonStr c.photoId ++
  ",\"audioPath\":" ++ jsonStr c.audioPath ++
  ",\"createdAt\":" ++ toString c.createdAt ++
  (match c.duration with
   | none => ""
   | some d => ",\"duration\":" ++ toString d) ++ "\x7d"

def serializeClips (cs : List AudioClip) : String :=
  "[" ++ joinWith "," (cs.map serializeClip) ++ "]"

def serializeEntry (e : String × List AudioClip) : String :=
  "[" ++ jsonStr e.1 ++ "," ++ serializeClips e.2 ++ "]"

/-- The byte string `saveAssociations` writes to the durable slot. -/
def serializeIndex (m : AssociationIndex) : String :=
  "[" ++ joinWith "," (m.map serializeEntry) ++ "]"

/-! ### Store actions -/

/-- Result of one store action: the new index, the returned clip (`null`
for a cancelled attach), the document written to the durable slot by
`saveAssociations` (if any), and whether the blob store was touched. -/
structure ActionResult where
  index : AssociationIndex
  clip : Option AudioClip
  persisted : Option String
  blobWritten : Bool
deriving Repr

/-- `attachAudio(photoId)`.  `sourcePath` is the value returned by the
`audio:selectFile` dialog (`none` when the user cancelled); `clipId` and
`now` stand for the generated id and `Date.now()`; `storedPath` is the
path returned by `audio:copyToStorage`. -/
def attachAudio (idx : AssociationIndex) (photoId : String)
    (sourcePath : Option String) (clipId storedPath : String) (now : Nat) :
    ActionResult :=
  match sourcePath with
  | none => ⟨idx, none, none, false⟩
  | some _ =>
    let association : AudioClip :=
      { id := clipId, photoId := photoId, audioPath := storedPath,
        createdAt := now, duration := none }
    let existing := getClipsFor idx photoId
    let newIdx := mapSet idx photoId (existing ++ [association])
    ⟨newIdx, some association, some (serializeIndex newIdx), true⟩

/-- `saveRecording(photoId, base64Audio, durationSecs)`. -/
def saveRecording (idx : AssociationIndex) (photoId base64Audio : String)
    (durationSecs : Option Nat) (clipId storedPath : String) (now : Nat) :
    ActionResult :=
  let association : AudioClip :=
    { id := clipId, photoId := photoId, audioPath := storedPath,
      createdAt := now, duration := durationSecs }
  let existing := getClipsFor idx photoId
  let newIdx := mapSet idx photoId (existing ++ [association])
  ⟨newIdx, some association, some (serializeIndex newIdx), true⟩

/-- `removeAudio(photoId, clipId)`. -/
def removeAudio (idx : AssociationIndex) (photoId clipId : String) :
    AssociationIndex :=
  match mapGet idx photoId with
  | none => idx
  | some clips =>
    let filtered := clips.filter (fun c => c.id != clipId)
    if filtered.isEmpty then mapDelete idx photoId
    else mapSet idx photoId filtered

/-! ### Persistence and legacy migration (`loadAssociations`) -/

/-- A stored clip object as parsed from the durable document; legacy
records may lack the `id` field (`id = none`), and a present-but-empty
id string is distinct from a missing one because `value.id || gen` in
JavaScript treats `""` as falsy. -/
structure StoredClip where
  id : Option String
  photoId : String
  audioPath : String
  createdAt : Nat
  duration : Option Nat
deriving DecidableEq, Repr

/-- One stored value: either a legacy single object or the current
array-of-clips shape (`Array.isArray` shape inspection). -/
inductive StoredValue where
  | legacy (clip : StoredClip)
  | current (clips : List AudioClip)
deriving DecidableEq, Repr

/-- The durable slot as seen by `loadAssociations`: missing
(`localStorage.getItem` returned `null`), unparsable (`JSON.parse`
threw), or a parsed list of `(photoId, value)` entries. -/
inductive StoredDoc where
  | absent
  | corrupt
  | parsed (entries : List (String × StoredValue))
deriving DecidableEq, Repr

/-- The id synthesized for a migrated legacy record:
`migrated-${Date.now()}-${Math.random().toString(36).slice(2, 9)}`,
with the nondeterministic part supplied by the environment. -/
def mkMigratedId (r : String) : String := "migrated-" ++ r

/-- Whether a stored value is already in the current array format. -/
def isCurrentFmt : StoredValue → Bool
  | .current _ => true
  | .legacy _ => false

/-- Id chosen for a migrated legacy clip: `value.id || generated`. -/
def migratedId (storedId : Option String) (fresh : String) : String :=
  match storedId with
  | some s => if s = "" then fresh else s
  | none => fresh

/-- Whether `value.id || generated` actually consumes a generated id. -/
def usesFresh : Option String → Bool
  | some s => s = ""
  | none => true

/-- The migration loop of `loadAssociations`: builds `migratedMap` by
`Map.set`, adopting array values as-is and wrapping legacy objects in a
one-element array with `id: value.id || mkMigratedId …`.  `gen n` is the
nondeterministic part of the n-th generated id. -/
def migrateEntries (entries : List (String × StoredValue))
    (gen : Nat → String) (n : Nat) (acc : AssociationIndex) :
    AssociationIndex :=
  match entries with
  | [] => acc
  | (pid, .current clips) :: rest =>
    migrateEntries rest gen n (mapSet acc pid clips)
  | (pid, .legacy c) :: rest =>
    let clip : AudioClip :=
      { id := migratedId c.id (mkMigratedId (gen n)),
        photoId := c.photoId, audioPath := c.audioPath,
        createdAt := c.createdAt, duration := c.duration }
    migrateEntries rest gen (if usesFresh c.id then n + 1 else n)
      (mapSet acc pid [clip])

/-- Result of `loadAssociations`: the index after the call and the
document written back to the durable slot (if any). -/
structure LoadResult where
  index : AssociationIndex
  written : Option String
deriving Repr

/-- `loadAssociations()`.  `idx` is the index held before the call (empty
at application start).  On a missing document nothing changes; on a
parse failure the catch block only logs, leaving the index as it was and
writing nothing; on success the migrated map is adopted and immediately
persisted via `saveAssociations`. -/
def loadAssociations (idx : AssociationIndex) (doc : StoredDoc)
    (gen : Nat → String) : LoadResult :=
  match doc with
  | .absent => ⟨idx, none⟩
  | .corrupt => ⟨idx, none⟩
  | .parsed entries =>
    let m := migrateEntries entries gen 0 []
    ⟨m, some (serializeIndex m)⟩

/-- The parsed form of a document produced by `saveAssociations`: every
value is in the current array format. -/
def indexToDoc (idx : AssociationIndex) : List (String × StoredValue) :=
  idx.map (fun e => (e.1, StoredValue.current e.2))

/-! ### Operation traces and reachability -/

/-- One mutating store action together with its environment inputs. -/
inductive Op where
  | attach (photoId : String) (sourcePath : Option String)
      (clipId storedPath : String) (now : Nat)
  | save (photoId base64Audio : String) (durationSecs : Option Nat)
      (clipId storedPath : String) (now : Nat)
  | remove (photoId clipId : String)
deriving DecidableEq, Repr

def applyOp (idx : AssociationIndex) : Op → AssociationIndex
  | .attach pid src cid sp now => (attachAudio idx pid src cid sp now).index
  | .save pid b64 d cid sp now => (saveRecording idx pid b64 d cid sp now).index
  | .remove pid cid => removeAudio idx pid cid

/-- The index after running a sequence of operations from the initially
empty index. -/
def runOps (ops : List Op) : AssociationIndex := ops.foldl applyOp []

/-- The clip ids an operation generates: a cancelled attach returns
before generating one, and remove generates none. -/
def genIds : Op → List String
  | .attach _ none _ _ _ => []
  | .attach _ (some _) cid _ _ => [cid]
  | .save _ _ _ cid _ _ => [cid]
  | .remove _ _ => []

def traceIds : List Op → List String
  | [] => []
  | op :: rest => genIds op ++ traceIds rest

/-- An index the application can actually hold: the result of some
operation sequence from the empty initial index. -/
def Reachable (idx : AssociationIndex) : Prop :=
  ∃ ops : List Op, runOps ops = idx

/-! ### Invariants -/

def keysOf (m : AssociationIndex) : List String := m.map Prod.fst

def clipIdsOf (clips : List AudioClip) : List String :=
  clips.map AudioClip.id

def allClipIds : AssociationIndex → List String
  | [] => []
  | e :: rest => clipIdsOf e.2 ++ allClipIds rest

/-- Every clip stored under key `K` has `photoId = K`. -/
def photoIdsMatch (m : AssociationIndex) : Prop :=
  ∀ e ∈ m, ∀ c ∈ e.2, c.photoId = e.1

/-- No key is mapped to an empty clip list. -/
def noEmptyLists (m : AssociationIndex) : Prop :=
  ∀ e ∈ m, e.2 ≠ []

/-- Structural well-formedness that every operation preserves
unconditionally. -/
def StructInv (m : AssociationIndex) : Prop :=
  (keysOf m).Nodup ∧ noEmptyLists m ∧ photoIdsMatch m

/-! ### Blob repository naming (`audio:copyToStorage` in
`src/electron/main.ts`) -/

/-- Split a character list at every `'/'` (used for the basename part of
Node's `path.extname`). -/
def splitOnSlash : List Char → List (List Char)
  | [] => [[]]
  | c :: rest =>
    let r := splitOnSlash rest
    if c = '/' then [] :: r
    else
      match r with
      | [] => [[c]]
      | g :: gs => (c :: g) :: gs

/-- The suffix of a character list starting at its last `'.'`. -/
def extSuffix : List Char → List Char
  | [] => []
  | c :: rest =>
    let s := extSuffix rest
    if s = [] then (if c = '.' then c :: rest else []) else s

/-- Node's `path.extname`: the part of the basename from its last dot,
ignoring a dot in the leading position. -/
def extname (p : String) : String :=
  match (splitOnSlash p.toList).getLastD [] with
  | [] => ""
  | _ :: rest => String.mk (extSuffix rest)

/-- `photoId.replace(/\//g, '_')`. -/
def sanitizePhotoId (pid : String) : String :=
  String.mk (pid.toList.map (fun c => if c = '/' then '_' else c))

/-- The destination basename `${safePhotoId}_${clipId}${ext}` chosen by
the `audio:copyToStorage` handler. -/
def destFileName (sourcePath photoId clipId : String) : String :=
  sanitizePhotoId photoId ++ "_" ++ clipId ++ extname sourcePath

/-- The full destination path `path.join(audioDir, basename)`. -/
def destPath (audioDir sourcePath photoId clipId : String) : String :=
  audioDir ++ "/" ++ destFileName sourcePath photoId clipId

/-! ### Basic lemmas about the ordered-map operations -/

theorem mapGet_eq_none_iff {m : AssociationIndex} {k : String} :
    mapGet m k = none ↔ ∀ e ∈ m, e.1 ≠ k := by
  induction m with
  | nil => simp [mapGet]
  | cons e rest ih =>
    by_cases h : e.1 = k
    · simp [mapGet, h]
    · simp [mapGet, h, ih]

theorem mapSet_of_not_mem {m : AssociationIndex} {k : String}
    (v : List AudioClip) (h : ∀ e ∈ m, e.1 ≠ k) :
    mapSet m k v = m ++ [(k, v)] := by
  induction m with
  | nil => rfl
  | cons e rest ih =>
    have he : e.1 ≠ k := h e (by simp)
    simp only [mapSet, if_neg he, List.cons_append, List.cons.injEq, true_and]
    exact ih (fun e' h' => h e' (by simp [h']))

theorem mapGet_split {m : AssociationIndex} {k : String}
    {v : List AudioClip} (h : mapGet m k = some v) :
    ∃ m1 m2, m = m1 ++ (k, v) :: m2 ∧ ∀ e ∈ m1, e.1 ≠ k := by
  induction m with
  | nil => simp [mapGet] at h
  | cons e rest ih =>
    by_cases he : e.1 = k
    · refine ⟨[], rest, ?_, by simp⟩
      simp only [mapGet, if_pos he, Option.some.injEq] at h
      cases e with
      | mk k' v' =>
        simp only [List.nil_append, List.cons.injEq, and_true]
        simp only at he h
        simp [he, h]
    · simp only [mapGet, if_neg he] at h
      obtain ⟨m1, m2, hm, h1⟩ := ih h
      refine ⟨e :: m1, m2, by simp [hm], ?_⟩
      intro e' h'
      rcases List.mem_cons.mp h' with h'' | h''
      · subst h''; exact he
      · exact h1 e' h''

theorem mapGet_append_cons {m1 : AssociationIndex} {k : String}
    (m2 : AssociationIndex) (v : List AudioClip)
    (h : ∀ e ∈ m1, e.1 ≠ k) :
    mapGet (m1 ++ (k, v) :: m2) k = some v := by
  induction m1 with
  | nil => simp [mapGet]
  | cons e rest ih =>
    have he : e.1 ≠ k := h e (by simp)
    simp only [List.cons_append, mapGet, if_neg he]
    exact ih (fun e' h' => h e' (by simp [h']))

theorem mapSet_append_cons {m1 : AssociationIndex} {k : String}
    (m2 : AssociationIndex) (v w : List AudioClip)
    (h : ∀ e ∈ m1, e.1 ≠ k) :
    mapSet (m1 ++ (k, v) :: m2) k w = m1 ++ (k, w) :: m2 := by
  induction m1 with
  | nil => simp [mapSet]
  | cons e rest ih =>
    have he : e.1 ≠ k := h e (by simp)
    simp only [List.cons_append, mapSet, if_neg he, List.cons.injEq, true_and]
    exact ih (fun e' h' => h e' (by simp [h']))

theorem mapDelete_append_cons {m1 : AssociationIndex} {k : String}
    (m2 : AssociationIndex) (v : List AudioClip)
    (h : ∀ e ∈ m1, e.1 ≠ k) :
    mapDelete (m1 ++ (k, v) :: m2) k = m1 ++ m2 := by
  induction m1 with
  | nil => simp [mapDelete]
  | cons e rest ih =>
    have he : e.1 ≠ k := h e (by simp)
    simp only [List.cons_append, mapDelete, if_neg he, List.cons.injEq,
      true_and]
    exact ih (fun e' h' => h e' (by simp [h']))

theorem mapSet_self {m : AssociationIndex} {k : String}
    {v : List AudioClip} (h : mapGet m k = some v) :
    mapSet m k v = m := by
  obtain ⟨m1, m2, rfl, h1⟩ := mapGet_split h
  exact mapSet_append_cons m2 v v h1

theorem mapGet_mapSet_self (m : AssociationIndex) (k : String)
    (v : List AudioClip) :
    mapGet (mapSet m k v) k = some v := by
  cases hg : mapGet m k with
  | none =>
    rw [mapSet_of_not_mem v (mapGet_eq_none_iff.mp hg)]
    exact mapGet_append_cons [] v (mapGet_eq_none_iff.mp hg)
  | some w =>
    obtain ⟨m1, m2, rfl, h1⟩ := mapGet_split hg
    rw [mapSet_append_cons m2 w v h1]
    exact mapGet_append_cons m2 v h1

theorem mapGet_mem {m : AssociationIndex} {k : String}
    {v : List AudioClip} (h : mapGet m k = some v) : (k, v) ∈ m := by
  obtain ⟨m1, m2, rfl, -⟩ := mapGet_split h
  simp

theorem allClipIds_append (m1 m2 : AssociationIndex) :
    allClipIds (m1 ++ m2) = allClipIds m1 ++ allClipIds m2 := by
  induction m1 with
  | nil => simp [allClipIds]
  | cons e rest ih => simp [allClipIds, ih]

theorem keysOf_append (m1 m2 : AssociationIndex) :
    keysOf (m1 ++ m2) = keysOf m1 ++ keysOf m2 := by
  simp [keysOf]

/-! ### Preservation of the invariants by each operation -/

theorem structInv_appendClip {m : AssociationIndex} {pid : String}
    (a : AudioClip) (hpid : a.photoId = pid) (h : StructInv m) :
    StructInv (mapSet m pid (getClipsFor m pid ++ [a])) := by
  obtain ⟨hkeys, hne, hmatch⟩ := h
  cases hg : mapGet m pid with
  | none =>
    have hnm : ∀ e ∈ m, e.1 ≠ pid := mapGet_eq_none_iff.mp hg
    rw [getClipsFor, hg, Option.getD_none, List.nil_append,
      mapSet_of_not_mem _ hnm]
    refine ⟨?_, ?_, ?_⟩
    · rw [keysOf_append]
      have hk : keysOf [(pid, [a])] = [pid] := rfl
      rw [hk, List.nodup_append]
      refine ⟨hkeys, List.nodup_singleton pid, ?_⟩
      intro x hx hx2
      rcases List.mem_singleton.mp hx2 with rfl
      obtain ⟨e, he, he2⟩ := List.mem_map.mp hx
      exact hnm e he he2
    · intro e he
      rcases List.mem_append.mp he with h1 | h1
      · exact hne e h1
      · rcases List.mem_singleton.mp h1 with rfl
        simp
    · intro e he c hc
      rcases List.mem_append.mp he with h1 | h1
      · exact hmatch e h1 c hc
      · rcases List.mem_singleton.mp h1 with rfl
        rcases List.mem_singleton.mp hc with rfl
        exact hpid
  | some clips =>
    obtain ⟨m1, m2, hm, h1⟩ := mapGet_split hg
    subst hm
    rw [getClipsFor, hg, Option.getD_some,
      mapSet_append_cons m2 clips (clips ++ [a]) h1]
    refine ⟨?_, ?_, ?_⟩
    · have hk : keysOf (m1 ++ (pid, clips ++ [a]) :: m2) =
          keysOf (m1 ++ (pid, clips) :: m2) := by simp [keysOf]
      rw [hk]; exact hkeys
    · intro e he
      rcases List.mem_append.mp he with h2 | h2
      · exact hne e (List.mem_append_left _ h2)
      · rcases List.mem_cons.mp h2 with rfl | h3
        · simp
        · exact hne e (List.mem_append_right _ (List.mem_cons_of_mem _ h3))
    · intro e he c hc
      rcases List.mem_append.mp he with h2 | h2
      · exact hmatch e (List.mem_append_left _ h2) c hc
      · rcases List.mem_cons.mp h2 with rfl | h3
        · rcases List.mem_append.mp hc with hc1 | hc1
          · exact hmatch (pid, clips) (by simp) c hc1
          · rcases List.mem_singleton.mp hc1 with rfl
            exact hpid
        · exact hmatch e
            (List.mem_append_right _ (List.mem_cons_of_mem _ h3)) c hc

theorem idsNodup_appendClip {m : AssociationIndex} {pid : String}
    (a : AudioClip) (hnodup : (allClipIds m).Nodup)
    (hfresh : a.id ∉ allClipIds m) :
    (allClipIds (mapSet m pid (getClipsFor m pid ++ [a]))).Nodup := by
  cases hg : mapGet m pid with
  | none =>
    have hnm := mapGet_eq_none_iff.mp hg
    rw [getClipsFor, hg, Option.getD_none, List.nil_append,
      mapSet_of_not_mem _ hnm, allClipIds_append]
    have h2 : allClipIds [(pid, [a])] = [a.id] := rfl
    rw [h2, List.nodup_append]
    refine ⟨hnodup, List.nodup_singleton _, ?_⟩
    intro x hx hx2
    rcases List.mem_singleton.mp hx2 with rfl
    exact hfresh hx
  | some clips =>
    obtain ⟨m1, m2, hm, h1⟩ := mapGet_split hg
    subst hm
    rw [getClipsFor, hg, Option.getD_some,
      mapSet_append_cons m2 clips (clips ++ [a]) h1]
    have hA : ∀ x : List AudioClip,
        allClipIds (m1 ++ (pid, x) :: m2) =
          allClipIds m1 ++ (clipIdsOf x ++ allClipIds m2) := by
      intro x
      rw [allClipIds_append]
      rfl
    rw [hA]
    rw [hA] at hnodup hfresh
    have hcl : clipIdsOf (clips ++ [a]) = clipIdsOf clips ++ [a.id] := by
      simp [clipIdsOf]
    rw [hcl]
    have heq : allClipIds m1 ++
          ((clipIdsOf clips ++ [a.id]) ++ allClipIds m2) =
        (allClipIds m1 ++ clipIdsOf clips) ++ a.id :: allClipIds m2 := by
      simp
    rw [heq, List.nodup_middle, List.nodup_cons]
    constructor
    · intro hmem
      exact hfresh (by simpa [List.append_assoc] using hmem)
    · simpa [List.append_assoc] using hnodup

theorem allClipIds_appendClip_subset (m : AssociationIndex) (pid : String)
    (a : AudioClip) :
    allClipIds (mapSet m pid (getClipsFor m pid ++ [a])) ⊆
      allClipIds m ++ [a.id] := by
  cases hg : mapGet m pid with
  | none =>
    rw [getClipsFor, hg, Option.getD_none, List.nil_append,
      mapSet_of_not_mem _ (mapGet_eq_none_iff.mp hg), allClipIds_append]
    intro x hx
    exact hx
  | some clips =>
    obtain ⟨m1, m2, hm, h1⟩ := mapGet_split hg
    subst hm
    rw [getClipsFor, hg, Option.getD_some,
      mapSet_append_cons m2 clips (clips ++ [a]) h1]
    intro x hx
    rw [allClipIds_append] at hx
    rw [allClipIds_append]
    have h2 : ∀ y : List AudioClip,
        allClipIds ((pid, y) :: m2) = clipIdsOf y ++ allClipIds m2 :=
      fun _ => rfl
    rw [h2] at hx
    rw [h2]
    have hcl : clipIdsOf (clips ++ [a]) = clipIdsOf clips ++ [a.id] := by
      simp [clipIdsOf]
    rw [hcl] at hx
    simp only [List.mem_append, List.mem_singleton] at hx ⊢
    tauto

theorem removeAudio_structInv {m : AssociationIndex} (pid cid : String)
    (h : StructInv m) : StructInv (removeAudio m pid cid) := by
  obtain ⟨hkeys, hne, hmatch⟩ := h
  cases hg : mapGet m pid with
  | none =>
    simp only [removeAudio, hg]
    exact ⟨hkeys, hne, hmatch⟩
  | some clips =>
    obtain ⟨m1, m2, hm, h1⟩ := mapGet_split hg
    simp only [removeAudio, hg]
    by_cases hf : (clips.filter (fun c => c.id != cid)).isEmpty = true
    · rw [if_pos hf]
      subst hm
      rw [mapDelete_append_cons m2 clips h1]
      refine ⟨?_, ?_, ?_⟩
      · have hsub : List.Sublist (keysOf (m1 ++ m2))
            (keysOf (m1 ++ (pid, clips) :: m2)) := by
          rw [keysOf_append, keysOf_append]
          have hk : keysOf ((pid, clips) :: m2) = pid :: keysOf m2 := rfl
          rw [hk]
          exact List.Sublist.append_left (List.sublist_cons_self _ _) _
        exact List.Nodup.sublist hsub hkeys
      · intro e he
        rcases List.mem_append.mp he with h2 | h2
        · exact hne e (List.mem_append_left _ h2)
        · exact hne e (List.mem_append_right _ (List.mem_cons_of_mem _ h2))
      · intro e he c hc
        rcases List.mem_append.mp he with h2 | h2
        · exact hmatch e (List.mem_append_left _ h2) c hc
        · exact hmatch e
            (List.mem_append_right _ (List.mem_cons_of_mem _ h2)) c hc
    · rw [if_neg hf]
      subst hm
      rw [mapSet_append_cons m2 clips _ h1]
      refine ⟨?_, ?_, ?_⟩
      · have hk : keysOf
            (m1 ++ (pid, clips.filter (fun c => c.id != cid)) :: m2) =
            keysOf (m1 ++ (pid, clips) :: m2) := by simp [keysOf]
        rw [hk]; exact hkeys
      · intro e he
        rcases List.mem_append.mp he with h2 | h2
        · exact hne e (List.mem_append_left _ h2)
        · rcases List.mem_cons.mp h2 with rfl | h3
          · intro hnil
            apply hf
            rw [show (pid, clips.filter (fun c => c.id != cid)).2 =
              clips.filter (fun c => c.id != cid) from rfl] at hnil
            rw [hnil]
            rfl
          · exact hne e
              (List.mem_append_right _ (List.mem_cons_of_mem _ h3))
      · intro e he c hc
        rcases List.mem_append.mp he with h2 | h2
        · exact hmatch e (List.mem_append_left _ h2) c hc
        · rcases List.mem_cons.mp h2 with rfl | h3
          · exact hmatch (pid, clips) (by simp) c (List.mem_of_mem_filter hc)
          · exact hmatch e
              (List.mem_append_right _ (List.mem_cons_of_mem _ h3)) c hc

theorem allClipIds_removeAudio_sublist (m : AssociationIndex)
    (pid cid : String) :
    List.Sublist (allClipIds (removeAudio m pid cid)) (allClipIds m) := by
  cases hg : mapGet m pid with
  | none =>
    simp only [removeAudio, hg]
    exact List.Sublist.refl _
  | some clips =>
    obtain ⟨m1, m2, hm, h1⟩ := mapGet_split hg
    simp only [removeAudio, hg]
    by_cases hf : (clips.filter (fun c => c.id != cid)).isEmpty = true
    · rw [if_pos hf]
      subst hm
      rw [mapDelete_append_cons m2 clips h1, allClipIds_append,
        allClipIds_append]
      have h2 : allClipIds ((pid, clips) :: m2) =
          clipIdsOf clips ++ allClipIds m2 := rfl
      rw [h2]
      exact List.Sublist.append_left (List.sublist_append_right _ _) _
    · rw [if_neg hf]
      subst hm
      rw [mapSet_append_cons m2 clips _ h1, allClipIds_append,
        allClipIds_append]
      have h2 : ∀ x : List AudioClip,
          allClipIds ((pid, x) :: m2) = clipIdsOf x ++ allClipIds m2 :=
        fun _ => rfl
      rw [h2, h2]
      refine List.Sublist.append_left ?_ _
      exact List.Sublist.append (List.Sublist.map _ (List.filter_sublist _))
        (List.Sublist.refl _)

theorem idsNodup_removeAudio (m : AssociationIndex) (pid cid : String)
    (h : (allClipIds m).Nodup) :
    (allClipIds (removeAudio m pid cid)).Nodup :=
  List.Nodup.sublist (allClipIds_removeAudio_sublist m pid cid) h

theorem applyOp_attach_some (m : AssociationIndex)
    (pid s cid sp : String) (now : Nat) :
    applyOp m (.attach pid (some s) cid sp now) =
      mapSet m pid (getClipsFor m pid ++ [⟨cid, pid, sp, now, none⟩]) := rfl

theorem applyOp_save (m : AssociationIndex) (pid b64 : String)
    (d : Option Nat) (cid sp : String) (now : Nat) :
    applyOp m (.save pid b64 d cid sp now) =
      mapSet m pid (getClipsFor m pid ++ [⟨cid, pid, sp, now, d⟩]) := rfl

theorem applyOp_structInv {m : AssociationIndex} (op : Op)
    (h : StructInv m) : StructInv (applyOp m op) := by
  cases op with
  | attach pid src cid sp now =>
    cases src with
    | none => exact h
    | some s =>
      rw [applyOp_attach_some]
      exact structInv_appendClip _ rfl h
  | save pid b64 d cid sp now =>
    rw [applyOp_save]
    exact structInv_appendClip _ rfl h
  | remove pid cid => exact removeAudio_structInv pid cid h

theorem applyOp_idsNodup {m : AssociationIndex} {op : Op}
    (h : (allClipIds m).Nodup)
    (hfresh : ∀ i ∈ genIds op, i ∉ allClipIds m) :
    (allClipIds (applyOp m op)).Nodup := by
  cases op with
  | attach pid src cid sp now =>
    cases src with
    | none => exact h
    | some s =>
      rw [applyOp_attach_some]
      exact idsNodup_appendClip _ h (hfresh cid (by simp [genIds]))
  | save pid b64 d cid sp now =>
    rw [applyOp_save]
    exact idsNodup_appendClip _ h (hfresh cid (by simp [genIds]))
  | remove pid cid => exact idsNodup_removeAudio m pid cid h

theorem allClipIds_applyOp_subset (m : AssociationIndex) (op : Op) :
    allClipIds (applyOp m op) ⊆ allClipIds m ++ genIds op := by
  cases op with
  | attach pid src cid sp now =>
    cases src with
    | none => intro x hx; exact List.mem_append_left _ hx
    | some s =>
      rw [applyOp_attach_some]
      exact allClipIds_appendClip_subset m pid _
  | save pid b64 d cid sp now =>
    rw [applyOp_save]
    exact allClipIds_appendClip_subset m pid _
  | remove pid cid =>
    intro x hx
    exact List.mem_append_left _
      ((allClipIds_removeAudio_sublist m pid cid).subset hx)

theorem foldl_structInv (ops : List Op) :
    ∀ m, StructInv m → StructInv (ops.foldl applyOp m) := by
  induction ops with
  | nil => intro m h; exact h
  | cons op rest ih => intro m h; exact ih _ (applyOp_structInv op h)

theorem foldl_idsNodup (ops : List Op) :
    ∀ m, (allClipIds m).Nodup → (traceIds ops).Nodup →
      (∀ i ∈ traceIds ops, i ∉ allClipIds m) →
      (allClipIds (ops.foldl applyOp m)).Nodup := by
  induction ops with
  | nil => intro m h _ _; exact h
  | cons op rest ih =>
    intro m h htrace hdisj
    have e1 : traceIds (op :: rest) = genIds op ++ traceIds rest := rfl
    rw [e1, List.nodup_append] at htrace
    have hd1 : ∀ i ∈ genIds op, i ∉ allClipIds m := fun i hi =>
      hdisj i (by rw [e1]; exact List.mem_append_left _ hi)
    have hd2 : ∀ i ∈ traceIds rest, i ∉ allClipIds m := fun i hi =>
      hdisj i (by rw [e1]; exact List.mem_append_right _ hi)
    refine ih _ (applyOp_idsNodup h hd1) htrace.2.1 ?_
    intro i hi hmem
    rcases List.mem_append.mp (allClipIds_applyOp_subset m op hmem) with
      h1 | h1
    · exact hd2 i hi h1
    · exact htrace.2.2 h1 hi

theorem structInv_empty : StructInv ([] : AssociationIndex) := by
  refine ⟨List.nodup_nil, ?_, ?_⟩
  · intro e he; cases he
  · intro e he; cases he

theorem reachable_structInv {m : AssociationIndex} (h : Reachable m) :
    StructInv m := by
  obtain ⟨ops, rfl⟩ := h
  exact foldl_structInv ops [] structInv_empty

theorem traceIds_append (l1 l2 : List Op) :
    traceIds (l1 ++ l2) = traceIds l1 ++ traceIds l2 := by
  induction l1 with
  | nil => rfl
  | cons op rest ih => simp [traceIds, ih]

/-! ### Migration of current-format documents is the identity -/

theorem migrateEntries_current (idx : AssociationIndex) (gen : Nat → String)
    (n : Nat) :
    ∀ acc : AssociationIndex, (keysOf idx).Nodup →
      (∀ k ∈ keysOf idx, ∀ e ∈ acc, e.1 ≠ k) →
      migrateEntries (indexToDoc idx) gen n acc = acc ++ idx := by
  induction idx generalizing n with
  | nil =>
    intro acc _ _
    simp [indexToDoc, migrateEntries]
  | cons e rest ih =>
    intro acc hnodup hdisj
    obtain ⟨pid, clips⟩ := e
    have hk : keysOf ((pid, clips) :: rest) = pid :: keysOf rest := rfl
    rw [hk] at hnodup hdisj
    have hpid : pid ∉ keysOf rest := (List.nodup_cons.mp hnodup).1
    have htail : (keysOf rest).Nodup := (List.nodup_cons.mp hnodup).2
    have e2 : migrateEntries (indexToDoc ((pid, clips) :: rest)) gen n acc =
        migrateEntries (indexToDoc rest) gen n (mapSet acc pid clips) := rfl
    rw [e2]
    have hset : mapSet acc pid clips = acc ++ [(pid, clips)] :=
      mapSet_of_not_mem _ (fun e' he' => hdisj pid (by simp) e' he')
    have hrest : ∀ k ∈ keysOf rest, ∀ e' ∈ acc ++ [(pid, clips)],
        e'.1 ≠ k := by
      intro k hkmem e' he'
      rcases List.mem_append.mp he' with h2 | h2
      · exact hdisj k (List.mem_cons_of_mem _ hkmem) e' h2
      · rcases List.mem_singleton.mp h2 with rfl
        intro hcontra
        simp only at hcontra
        subst hcontra
        exact hpid hkmem
    rw [hset, ih n (acc ++ [(pid, clips)]) htail hrest]
    simp

/-! ### The claims -/

/-- C1: for every sequence of attach/save/remove operations applied to the
initially empty index — with the clip ids generated along the trace
pairwise distinct, which is what the time-plus-random id generator is
designed to guarantee — after each operation every clip stored under a
key has `photoId` equal to that key, and all clip ids in the index are
globally distinct. -/
theorem claim1_invariant_after_each_op (pre suf : List Op)
    (h : (traceIds (pre ++ suf)).Nodup) :
    photoIdsMatch (runOps pre) ∧ (allClipIds (runOps pre)).Nodup := by
  have hpre : (traceIds pre).Nodup := by
    rw [traceIds_append] at h
    exact (List.nodup_append.mp h).1
  constructor
  · exact (foldl_structInv pre [] structInv_empty).2.2
  · exact foldl_idsNodup pre [] List.nodup_nil hpre
      (fun i _ hmem => List.not_mem_nil i hmem)

/-- Witness for C1 at a concrete three-operation trace. -/
theorem claim1_invariant_after_each_op_witness :
    (traceIds ([Op.save "p1" "b64" (some 5) "c1" "/s1" 10,
        Op.attach "p2" (some "/src") "c2" "/s2" 20] ++
        [Op.remove "p1" "c1"])).Nodup ∧
      (photoIdsMatch (runOps [Op.save "p1" "b64" (some 5) "c1" "/s1" 10,
          Op.attach "p2" (some "/src") "c2" "/s2" 20]) ∧
        (allClipIds (runOps [Op.save "p1" "b64" (some 5) "c1" "/s1" 10,
          Op.attach "p2" (some "/src") "c2" "/s2" 20])).Nodup) :=
  ⟨by decide, claim1_invariant_after_each_op
    [Op.save "p1" "b64" (some 5) "c1" "/s1" 10,
      Op.attach "p2" (some "/src") "c2" "/s2" 20]
    [Op.remove "p1" "c1"] (by decide)⟩

/-- C2: loading a legacy-format document whose value for `"p1"` is the
single object `{photoId: "p1", audioPath: "/a.wav", createdAt: 1000}`
with no id yields an index mapping `"p1"` to one clip with a non-empty
synthesized id, and a second load of what was persisted (the migrated
array shape) yields the very same clip id, whatever the id generator
returns on either load. -/
theorem claim2_legacy_migration_stable (gen gen2 : Nat → String) :
    (loadAssociations [] (StoredDoc.parsed
        [("p1", StoredValue.legacy ⟨none, "p1", "/a.wav", 1000, none⟩)])
        gen).index =
      [("p1", [⟨mkMigratedId (gen 0), "p1", "/a.wav", 1000, none⟩])] ∧
    mkMigratedId (gen 0) ≠ "" ∧
    (loadAssociations
        (loadAssociations [] (StoredDoc.parsed
          [("p1", StoredValue.legacy ⟨none, "p1", "/a.wav", 1000, none⟩)])
          gen).index
        (StoredDoc.parsed (indexToDoc
          (loadAssociations [] (StoredDoc.parsed
            [("p1", StoredValue.legacy ⟨none, "p1", "/a.wav", 1000, none⟩)])
            gen).index))
        gen2).index =
      (loadAssociations [] (StoredDoc.parsed
        [("p1", StoredValue.legacy ⟨none, "p1", "/a.wav", 1000, none⟩)])
        gen).index := by
  refine ⟨rfl, ?_, rfl⟩
  intro hcontra
  have hlen : (mkMigratedId (gen 0)).length = 0 := by rw [hcontra]; rfl
  rw [mkMigratedId, String.length_append] at hlen
  have h9 : ("migrated-" : String).length = 9 := rfl
  rw [h9] at hlen
  omega

/-- C3: serializing a reachable index, deserializing that document
through load, and serializing the loaded index again is byte-identical
to the first serialization; moreover the document load writes back is
that same byte string. -/
theorem claim3_serialize_round_trip (idx : AssociationIndex)
    (gen : Nat → String) (h : Reachable idx) :
    serializeIndex ((loadAssociations [] (StoredDoc.parsed
        (indexToDoc idx)) gen).index) = serializeIndex idx ∧
    (loadAssociations [] (StoredDoc.parsed (indexToDoc idx)) gen).written =
      some (serializeIndex idx) := by
  have hkeys : (keysOf idx).Nodup := (reachable_structInv h).1
  have hload : (loadAssociations [] (StoredDoc.parsed (indexToDoc idx))
      gen).index = idx := by
    have e1 : (loadAssociations [] (StoredDoc.parsed (indexToDoc idx))
        gen).index = migrateEntries (indexToDoc idx) gen 0 [] := rfl
    rw [e1, migrateEntries_current idx gen 0 [] hkeys
      (fun k _ e' he' => absurd he' (List.not_mem_nil e'))]
    simp
  constructor
  · rw [hload]
  · have e2 : (loadAssociations [] (StoredDoc.parsed (indexToDoc idx))
        gen).written = some (serializeIndex ((loadAssociations []
          (StoredDoc.parsed (indexToDoc idx)) gen).index)) := rfl
    rw [e2, hload]

/-- Witness for C3 at a concrete reachable one-entry index. -/
theorem claim3_serialize_round_trip_witness :
    Reachable [("p1", [⟨"c1", "p1", "/a", 10, some 5⟩])] ∧
    (serializeIndex ((loadAssociations [] (StoredDoc.parsed (indexToDoc
        [("p1", [⟨"c1", "p1", "/a", 10, some 5⟩])]))
        (fun _ => "g")).index) =
      serializeIndex [("p1", [⟨"c1", "p1", "/a", 10, some 5⟩])] ∧
    (loadAssociations [] (StoredDoc.parsed (indexToDoc
        [("p1", [⟨"c1", "p1", "/a", 10, some 5⟩])]))
        (fun _ => "g")).written =
      some (serializeIndex [("p1", [⟨"c1", "p1", "/a", 10, some 5⟩])])) :=
  ⟨⟨[Op.save "p1" "b" (some 5) "c1" "/a" 10], rfl⟩,
    claim3_serialize_round_trip _ _
      ⟨[Op.save "p1" "b" (some 5) "c1" "/a" 10], rfl⟩⟩

/-- C8: when the durable document is corrupt, load leaves the (initially
empty) index empty and writes nothing back; being a total function it
raises nothing to its caller. -/
theorem claim8_corrupt_doc_empty_index (gen : Nat → String) :
    (loadAssociations [] StoredDoc.corrupt gen).index = [] ∧
    (loadAssociations [] StoredDoc.corrupt gen).written = none :=
  ⟨rfl, rfl⟩

/-- C9: when the file-selection dialog yields no path, attachAudio
returns null, and neither the index, the durable slot nor the blob store
is touched. -/
theorem claim9_attach_cancelled (idx : AssociationIndex)
    (pid cid sp : String) (now : Nat) :
    (attachAudio idx pid none cid sp now).clip = none ∧
    (attachAudio idx pid none cid sp now).index = idx ∧
    (attachAudio idx pid none cid sp now).persisted = none ∧
    (attachAudio idx pid none cid sp now).blobWritten = false :=
  ⟨rfl, rfl, rfl, rfl⟩

/-- C10: every load of a document that parses successfully writes the
re-serialized index back to the durable slot, even when every stored
entry is already in the current array format and no migration happened. -/
theorem claim10_load_always_writes (idx0 : AssociationIndex)
    (entries : List (String × StoredValue)) (gen : Nat → String)
    (h : ∀ e ∈ entries, isCurrentFmt e.2 = true) :
    (loadAssociations idx0 (StoredDoc.parsed entries) gen).written =
      some (serializeIndex
        ((loadAssociations idx0 (StoredDoc.parsed entries) gen).index)) ∧
    (loadAssociations idx0 (StoredDoc.parsed entries) gen).written ≠
      none := by
  refine ⟨rfl, ?_⟩
  intro hcontra
  have e1 : (loadAssociations idx0 (StoredDoc.parsed entries) gen).written =
      some (serializeIndex (migrateEntries entries gen 0 [])) := rfl
  rw [e1] at hcontra
  cases hcontra

/-- Witness for C10 on an all-current-format two-entry document. -/
theorem claim10_load_always_writes_witness :
    (∀ e ∈ [("p1", StoredValue.current [⟨"c1", "p1", "/a", 10, some 5⟩]),
        ("p2", StoredValue.current [⟨"c2", "p2", "/b", 11, none⟩])],
      isCurrentFmt e.2 = true) ∧
    ((loadAssociations [] (StoredDoc.parsed
        [("p1", StoredValue.current [⟨"c1", "p1", "/a", 10, some 5⟩]),
         ("p2", StoredValue.current [⟨"c2", "p2", "/b", 11, none⟩])])
        (fun _ => "g")).written =
      some (serializeIndex ((loadAssociations [] (StoredDoc.parsed
        [("p1", StoredValue.current [⟨"c1", "p1", "/a", 10, some 5⟩]),
         ("p2", StoredValue.current [⟨"c2", "p2", "/b", 11, none⟩])])
        (fun _ => "g")).index)) ∧
    (loadAssociations [] (StoredDoc.parsed
        [("p1", StoredValue.current [⟨"c1", "p1", "/a", 10, some 5⟩]),
         ("p2", StoredValue.current [⟨"c2", "p2", "/b", 11, none⟩])])
        (fun _ => "g")).written ≠ none) :=
  ⟨by decide, claim10_load_always_writes _ _ _ (by decide)⟩

/-- C4: removing the last clip of a photo removes that photo's key from
the index entirely, and a subsequent `getClipsFor` on it returns the
empty list (removeAudio is total, so nothing is raised). -/
theorem claim4_remove_last_clip (idx : AssociationIndex)
    (pid cid : String) (clips : List AudioClip) (hr : Reachable idx)
    (hget : mapGet idx pid = some clips)
    (hall : ∀ c ∈ clips, c.id = cid) :
    mapGet (removeAudio idx pid cid) pid = none ∧
      getClipsFor (removeAudio idx pid cid) pid = [] := by
  have hkeys := (reachable_structInv hr).1
  have hfilter : clips.filter (fun c => c.id != cid) = [] := by
    rw [List.filter_eq_nil_iff]
    intro c hc
    simp [hall c hc]
  have hempty : (clips.filter (fun c => c.id != cid)).isEmpty = true := by
    rw [hfilter]; rfl
  have e1 : removeAudio idx pid cid = mapDelete idx pid := by
    simp only [removeAudio, hget, if_pos hempty]
  obtain ⟨m1, m2, hm, h1⟩ := mapGet_split hget
  subst hm
  rw [e1, mapDelete_append_cons m2 clips h1]
  have h3 : (pid :: keysOf m2).Nodup := by
    rw [keysOf_append] at hkeys
    have hk : keysOf ((pid, clips) :: m2) = pid :: keysOf m2 := rfl
    rw [hk] at hkeys
    exact (List.nodup_append.mp hkeys).2.1
  have hpid2 : pid ∉ keysOf m2 := (List.nodup_cons.mp h3).1
  have hnone : mapGet (m1 ++ m2) pid = none := by
    rw [mapGet_eq_none_iff]
    intro e he
    rcases List.mem_append.mp he with h2 | h2
    · exact h1 e h2
    · intro hcontra
      exact hpid2 (by rw [← hcontra]; exact List.mem_map_of_mem _ h2)
  exact ⟨hnone, by rw [getClipsFor, hnone]; rfl⟩

/-- Witness for C4: a reachable one-clip index, removing that clip. -/
theorem claim4_remove_last_clip_witness :
    Reachable [("p1", [⟨"c1", "p1", "/a", 10, some 5⟩])] ∧
    mapGet [("p1", [⟨"c1", "p1", "/a", 10, some 5⟩])] "p1" =
      some [⟨"c1", "p1", "/a", 10, some 5⟩] ∧
    (∀ c ∈ [(⟨"c1", "p1", "/a", 10, some 5⟩ : AudioClip)], c.id = "c1") ∧
    (mapGet (removeAudio [("p1", [⟨"c1", "p1", "/a", 10, some 5⟩])]
        "p1" "c1") "p1" = none ∧
      getClipsFor (removeAudio [("p1", [⟨"c1", "p1", "/a", 10, some 5⟩])]
        "p1" "c1") "p1" = []) :=
  ⟨⟨[Op.save "p1" "b" (some 5) "c1" "/a" 10], rfl⟩, by decide, by decide,
    claim4_remove_last_clip [("p1", [⟨"c1", "p1", "/a", 10, some 5⟩])]
      "p1" "c1" [⟨"c1", "p1", "/a", 10, some 5⟩]
      ⟨[Op.save "p1" "b" (some 5) "c1" "/a" 10], rfl⟩
      (by decide) (by decide)⟩

/-- C5: two consecutive saveRecording calls for `"p1"` (durations 5 then
3) on an index with no clips for `"p1"` yield exactly two clips in call
order with those durations; the two ids are the distinct generated
ones. -/
theorem claim5_two_recordings (idx : AssociationIndex)
    (b1 b2 cid1 cid2 sp1 sp2 : String) (t1 t2 : Nat)
    (h0 : getClipsFor idx "p1" = []) (hne : cid1 ≠ cid2) :
    getClipsFor ((saveRecording ((saveRecording idx "p1" b1 (some 5) cid1
        sp1 t1).index) "p1" b2 (some 3) cid2 sp2 t2).index) "p1" =
      [⟨cid1, "p1", sp1, t1, some 5⟩, ⟨cid2, "p1", sp2, t2, some 3⟩] ∧
    (getClipsFor ((saveRecording ((saveRecording idx "p1" b1 (some 5) cid1
        sp1 t1).index) "p1" b2 (some 3) cid2 sp2 t2).index) "p1").map
      AudioClip.id = [cid1, cid2] ∧
    cid1 ≠ cid2 ∧
    (getClipsFor ((saveRecording ((saveRecording idx "p1" b1 (some 5) cid1
        sp1 t1).index) "p1" b2 (some 3) cid2 sp2 t2).index) "p1").map
      AudioClip.duration = [some 5, some 3] := by
  have e1 : (saveRecording idx "p1" b1 (some 5) cid1 sp1 t1).index =
      mapSet idx "p1" (getClipsFor idx "p1" ++
        [⟨cid1, "p1", sp1, t1, some 5⟩]) := rfl
  rw [h0, List.nil_append] at e1
  have hg1 : getClipsFor (mapSet idx "p1"
      [⟨cid1, "p1", sp1, t1, some 5⟩]) "p1" =
      [⟨cid1, "p1", sp1, t1, some 5⟩] := by
    rw [getClipsFor, mapGet_mapSet_self]
    rfl
  have e2 : (saveRecording ((saveRecording idx "p1" b1 (some 5) cid1 sp1
      t1).index) "p1" b2 (some 3) cid2 sp2 t2).index =
      mapSet ((saveRecording idx "p1" b1 (some 5) cid1 sp1 t1).index) "p1"
        (getClipsFor ((saveRecording idx "p1" b1 (some 5) cid1 sp1
          t1).index) "p1" ++ [⟨cid2, "p1", sp2, t2, some 3⟩]) := rfl
  have hfinal : getClipsFor ((saveRecording ((saveRecording idx "p1" b1
      (some 5) cid1 sp1 t1).index) "p1" b2 (some 3) cid2 sp2
      t2).index) "p1" =
      [⟨cid1, "p1", sp1, t1, some 5⟩, ⟨cid2, "p1", sp2, t2, some 3⟩] := by
    rw [e2, e1, hg1, getClipsFor, mapGet_mapSet_self]
    rfl
  refine ⟨hfinal, by rw [hfinal]; rfl, hne, by rw [hfinal]; rfl⟩

/-- Witness for C5 from the empty index with ids `c1`, `c2`. -/
theorem claim5_two_recordings_witness :
    getClipsFor ([] : AssociationIndex) "p1" = [] ∧ "c1" ≠ "c2" ∧
    (getClipsFor ((saveRecording ((saveRecording ([] : AssociationIndex)
        "p1" "b1" (some 5) "c1" "/s1" 10).index) "p1" "b2" (some 3) "c2"
        "/s2" 20).index) "p1" =
      [⟨"c1", "p1", "/s1", 10, some 5⟩, ⟨"c2", "p1", "/s2", 20, some 3⟩] ∧
    (getClipsFor ((saveRecording ((saveRecording ([] : AssociationIndex)
        "p1" "b1" (some 5) "c1" "/s1" 10).index) "p1" "b2" (some 3) "c2"
        "/s2" 20).index) "p1").map AudioClip.id = ["c1", "c2"] ∧
    "c1" ≠ "c2" ∧
    (getClipsFor ((saveRecording ((saveRecording ([] : AssociationIndex)
        "p1" "b1" (some 5) "c1" "/s1" 10).index) "p1" "b2" (some 3) "c2"
        "/s2" 20).index) "p1").map AudioClip.duration =
      [some 5, some 3]) :=
  ⟨rfl, by decide,
    claim5_two_recordings [] "b1" "b2" "c1" "c2" "/s1" "/s2" 10 20
      rfl (by decide)⟩

/-- C6: the destination filename for
`storeFromPath("/tmp/x/clip.m4a", "photo/with/slash", "clip-1")` has
every `/` of the photo id replaced (the sanitized portion never contains
a slash, for any photo id) and preserves the source's `.m4a`
extension. -/
theorem claim6_sanitized_dest_name :
    (∀ pid : String, ∀ c ∈ (sanitizePhotoId pid).toList, c ≠ '/') ∧
    destFileName "/tmp/x/clip.m4a" "photo/with/slash" "clip-1" =
      "photo_with_slash_clip-1.m4a" ∧
    extname (destFileName "/tmp/x/clip.m4a" "photo/with/slash" "clip-1") =
      ".m4a" := by
  refine ⟨?_, by decide, by decide⟩
  intro pid c hc
  rcases List.mem_map.mp hc with ⟨c', _, rfl⟩
  by_cases h : c' = '/'
  · rw [if_pos h]; decide
  · rw [if_neg h]; exact h

/-- C7: removing a clip id that is not present in the photo's list — or
removing from a photo id with no entry at all — leaves the whole index
unchanged (same clips, same order) and raises nothing. -/
theorem claim7_remove_nonexistent_noop (idx : AssociationIndex)
    (pid cid : String) (hr : Reachable idx)
    (h : ∀ c ∈ getClipsFor idx pid, c.id ≠ cid) :
    removeAudio idx pid cid = idx := by
  cases hg : mapGet idx pid with
  | none => simp only [removeAudio, hg]
  | some clips =>
    have hclips : getClipsFor idx pid = clips := by
      rw [getClipsFor, hg]
      rfl
    rw [hclips] at h
    have hfe : clips.filter (fun c => c.id != cid) = clips := by
      rw [List.filter_eq_self]
      intro c hc
      simpa using h c hc
    have hne2 : clips ≠ [] :=
      (reachable_structInv hr).2.1 (pid, clips) (mapGet_mem hg)
    have hnotempty :
        ¬ ((clips.filter (fun c => c.id != cid)).isEmpty = true) := by
      rw [hfe]
      intro hcontra
      exact hne2 (List.isEmpty_iff.mp hcontra)
    simp only [removeAudio, hg, if_neg hnotempty]
    rw [hfe]
    exact mapSet_self hg

/-- Witness for C7: a reachable one-clip index and an absent clip id. -/
theorem claim7_remove_nonexistent_noop_witness :
    Reachable [("p1", [⟨"c1", "p1", "/a", 10, some 5⟩])] ∧
    (∀ c ∈ getClipsFor [("p1", [⟨"c1", "p1", "/a", 10, some 5⟩])] "p1",
      c.id ≠ "nonexistent") ∧
    removeAudio [("p1", [⟨"c1", "p1", "/a", 10, some 5⟩])]
        "p1" "nonexistent" =
      [("p1", [⟨"c1", "p1", "/a", 10, some 5⟩])] :=
  ⟨⟨[Op.save "p1" "b" (some 5) "c1" "/a" 10], rfl⟩, by decide,
    claim7_remove_nonexistent_noop _ _ _
      ⟨[Op.save "p1" "b" (some 5) "c1" "/a" 10], rfl⟩ (by decide)⟩

end PhotoSpeak
